import Mathlib

/-!
Verification of the post query, filtering, tag-aggregation and pagination
pipeline of a content-driven blog site (Nuxt/Vue single-file components).
Each JavaScript/TypeScript fragment with decision logic is embedded as an
executable Lean definition over explicit data; theorems settle the spec
claims against those definitions.
-/

/-- Char-list test: does `pre` start the list `l`?  (Building block for the
substring test underlying JavaScript `String.prototype.includes`.) -/
def listStarts : List Char → List Char → Bool
  | [], _ => true
  | _ :: _, [] => false
  | a :: as, b :: bs => a == b && listStarts as bs

/-- Char-list test: does `needle` occur as a contiguous run inside `hay`? -/
def listHasSub : List Char → List Char → Bool
  | [], needle => needle.isEmpty
  | c :: t, needle => listStarts needle (c :: t) || listHasSub t needle

/-- Embeds JavaScript `s.includes(sub)`: substring occurrence test. -/
def strIncludes (s sub : String) : Bool :=
  listHasSub s.data sub.data

/-- Embeds JavaScript `s.toLowerCase()`: character-wise lower-casing. -/
def jsToLower (s : String) : String :=
  ⟨s.data.map Char.toLower⟩

/-- Embeds JavaScript `s.trim()`: strip whitespace from both ends. -/
def jsTrim (s : String) : String :=
  ⟨((s.data.dropWhile Char.isWhitespace).reverse.dropWhile Char.isWhitespace).reverse⟩

/-- Embeds JavaScript `arr.join(' ')` on an array of strings. -/
def joinSpace : List String → String
  | [] => ""
  | [s] => s
  | s :: rest => s ++ " " ++ joinSpace rest

/-- A blog post record as the pages consume it: `path` is the stable
identifier; `title`, `description` and `tags` may be absent (the code guards
each access with `|| ''`, `|| []` or optional chaining). -/
structure Post where
  path : String
  title : Option String
  description : Option String
  tags : Option (List String)
deriving Repr, DecidableEq

/-- The match predicate of the search filter in `app/pages/blog/index.vue`
(`filteredPosts` computed): the already-normalized query `q` occurs in the
lower-cased title, the lower-cased description, or the lower-cased
space-joined tags. -/
def searchPredicate (q : String) (p : Post) : Bool :=
  strIncludes (jsToLower (p.title.getD "")) q
  || strIncludes (jsToLower (p.description.getD "")) q
  || strIncludes (jsToLower (joinSpace (p.tags.getD []))) q

/-- Embeds the `filteredPosts` computed property of
`app/pages/blog/index.vue`: `q = (searchTerm || '').trim().toLowerCase()`;
if `q` is empty the post list is returned unchanged, otherwise it is
filtered by `searchPredicate q`. -/
def filteredPosts (posts : List Post) (searchTerm : String) : List Post :=
  let q := jsToLower (jsTrim searchTerm)
  if q = "" then posts else posts.filter (searchPredicate q)

/-- The spec claim's matching predicate, taken from its words: the
lower-cased term `t` (no trimming) occurs in lower-cased title, description
or space-joined tags. -/
def claimMatches (t : String) (p : Post) : Bool :=
  searchPredicate (jsToLower t) p

/-- A concrete post used to evaluate the definitions at concrete inputs. -/
def samplePost : Post :=
  { path := "/blog/java-tips"
    title := some "Java Tips"
    description := some "short"
    tags := some ["java"] }

lemma jsToLower_empty_iff (s : String) : jsToLower s = "" ↔ s = "" := by
  cases s with
  | mk data =>
    simp [jsToLower, String.ext_iff]

/-- C1: the claim matches the untrimmed lower-cased term, but the code
matches the trimmed lower-cased term; at the term `" java "` (non-empty
after trimming) the two disagree on a post titled `"Java Tips"`. -/
theorem claimC1_counterexample :
    jsTrim " java " ≠ ""
    ∧ filteredPosts [samplePost] " java "
        ≠ List.filter (fun p => claimMatches " java " p) [samplePost] := by
  constructor
  · decide
  · decide

/-- C1 (amended): for every post list `P` and term `t` non-empty after
trimming, `filteredPosts P t` equals the subsequence of `P`, in input
order, of exactly those posts matched by the lower-cased *trimmed* term. -/
theorem claimC1_amended (P : List Post) (t : String) (h : jsTrim t ≠ "") :
    filteredPosts P t = P.filter (fun p => claimMatches (jsTrim t) p) := by
  have hq : jsToLower (jsTrim t) ≠ "" := fun hc => h ((jsToLower_empty_iff _).mp hc)
  simp only [filteredPosts, claimMatches]
  rw [if_neg hq]

/-- Witness for C1 (amended) at a concrete post list and term. -/
theorem claimC1_witness :
    jsTrim "java " ≠ ""
    ∧ filteredPosts [samplePost] "java "
        = List.filter (fun p => claimMatches (jsTrim "java ") p) [samplePost] :=
  ⟨by decide, claimC1_amended [samplePost] "java " (by decide)⟩

/-- C8: for every post list `P` and term `t` that is empty or
whitespace-only after trimming, the filter is the identity. -/
theorem claimC8 (P : List Post) (t : String) (h : jsTrim t = "") :
    filteredPosts P t = P := by
  simp only [filteredPosts, h]
  rfl

/-- Witness for C8 at a whitespace-only term. -/
theorem claimC8_witness : filteredPosts [samplePost] "   " = [samplePost] :=
  claimC8 [samplePost] "   " (by decide)

/-- Page size constant of `app/pages/index.vue` (`PAGE_SIZE = 6`). -/
def PAGE_SIZE : ℕ := 6

/-- Embeds `Math.ceil((totalCount || 0) / PAGE_SIZE)` from
`app/pages/index.vue`, with the page size generalized to a parameter:
the ceiling of the exact division. -/
def totalPages (totalCount pageSize : ℕ) : ℤ :=
  ⌈(totalCount : ℚ) / (pageSize : ℚ)⌉

/-- Embeds the offset `(page.value - 1) * PAGE_SIZE` passed to the query's
`skip` in `app/pages/index.vue`, page size generalized. -/
def skipOffset (page pageSize : ℤ) : ℤ :=
  (page - 1) * pageSize

/-- Embeds `goToPage` of `app/pages/index.vue`: out-of-range requests are
ignored (the state keeps its old `page`), in-range requests set `page`. -/
def goToPage (totalPagesV page p : ℤ) : ℤ :=
  if p < 1 ∨ totalPagesV < p then page else p

lemma ceil_cast_div_eq (tc ps : ℕ) (h : 1 ≤ ps) :
    ⌈(tc : ℚ) / (ps : ℚ)⌉ = ((tc + ps - 1) / ps : ℕ) := by
  have hps0 : 0 < ps := h
  have hpsQ : (0:ℚ) < (ps:ℚ) := by exact_mod_cast hps0
  rcases Nat.eq_zero_or_pos tc with h0 | h1
  · subst h0
    have hz : (0 + ps - 1) / ps = 0 := Nat.div_eq_of_lt (by omega)
    rw [hz]
    simp
  · have hn : (tc + ps - 1) / ps = (tc - 1) / ps + 1 := by
      have he : tc + ps - 1 = tc - 1 + ps := by omega
      rw [he, Nat.add_div_right _ hps0]
    rw [hn, Int.ceil_eq_iff]
    have hub : (tc - 1) / ps * ps ≤ tc - 1 := Nat.div_mul_le_self _ _
    have hstrict : (tc - 1) / ps * ps < tc := by
      set m := (tc - 1) / ps * ps with hm
      omega
    constructor
    · rw [lt_div_iff hpsQ]
      push_cast
      rw [add_sub_cancel_right]
      exact_mod_cast hstrict
    · rw [div_le_iff hpsQ]
      have hNat : tc ≤ ((tc - 1) / ps + 1) * ps := by
        have hd : ps * ((tc - 1) / ps) + (tc - 1) % ps = tc - 1 := Nat.div_add_mod _ _
        have hm2 : (tc - 1) % ps < ps := Nat.mod_lt _ hps0
        rw [Nat.add_mul, one_mul, mul_comm]
        set m := ps * ((tc - 1) / ps) with hm
        set r := (tc - 1) % ps with hr
        omega
      push_cast
      exact_mod_cast hNat

/-- C2: for every `totalCount ≥ 0` and `pageSize ≥ 1` the controller's
total-page count is the ceiling of the division (equivalently the rounded-up
integer division), it is `0` at `totalCount = 0`, and in the 13-post,
page-size-6 scenario `totalPages = 3` while page 2 gives offset 6. -/
theorem claimC2 (tc ps : ℕ) (h : 1 ≤ ps) :
    totalPages tc ps = ⌈(tc : ℚ) / (ps : ℚ)⌉
    ∧ totalPages tc ps = ((tc + ps - 1) / ps : ℕ)
    ∧ (tc = 0 → totalPages tc ps = 0)
    ∧ totalPages 13 PAGE_SIZE = 3
    ∧ skipOffset 2 (PAGE_SIZE : ℤ) = 6 := by
  refine ⟨rfl, ceil_cast_div_eq tc ps h, ?_, ?_, ?_⟩
  · intro h0
    subst h0
    rw [totalPages]
    push_cast
    simp
  · rw [totalPages, ceil_cast_div_eq 13 PAGE_SIZE (by decide)]
    decide
  · decide

/-- Witness for C2 at `totalCount = 13`, `pageSize = 6`. -/
theorem claimC2_witness :
    (1 ≤ 6)
    ∧ (totalPages 13 6 = ⌈(13 : ℚ) / (6 : ℚ)⌉
       ∧ totalPages 13 6 = ((13 + 6 - 1) / 6 : ℕ)
       ∧ (13 = 0 → totalPages 13 6 = 0)
       ∧ totalPages 13 PAGE_SIZE = 3
       ∧ skipOffset 2 (PAGE_SIZE : ℤ) = 6) :=
  ⟨by decide, claimC2 13 6 (by decide)⟩

/-- C5: `goToPage` ignores every out-of-range request (`p < 1` or
`p > totalPages`) and sets the page for every in-range `p`. -/
theorem claimC5 (totalPagesV page p : ℤ) :
    ((p < 1 ∨ totalPagesV < p) → goToPage totalPagesV page p = page)
    ∧ (1 ≤ p → p ≤ totalPagesV → goToPage totalPagesV page p = p) := by
  constructor
  · intro hc
    unfold goToPage
    rw [if_pos hc]
  · intro h1 h2
    unfold goToPage
    rw [if_neg (by omega)]

/-- Witness for C5: rejected below range, rejected above range, accepted
in range, on a 3-page state at page 1. -/
theorem claimC5_witness :
    goToPage 3 1 0 = 1 ∧ goToPage 3 1 4 = 1 ∧ goToPage 3 1 2 = 2 :=
  ⟨(claimC5 3 1 0).1 (by decide), (claimC5 3 1 4).1 (by decide),
   (claimC5 3 1 2).2 (by decide) (by decide)⟩

/-- The reachable page states of `app/pages/index.vue`: `page` starts at 1
and `goToPage` is the only transition. -/
inductive Reachable (totalPagesV : ℤ) : ℤ → Prop
  | init : Reachable totalPagesV 1
  | step (page p : ℤ) : Reachable totalPagesV page →
      Reachable totalPagesV (goToPage totalPagesV page p)

/-- C9: in every reachable pagination state `page ≥ 1`; when
`totalPages = 0` the page remains 1 in every reachable state. -/
theorem claimC9 (tp page : ℤ) (h : Reachable tp page) :
    1 ≤ page ∧ (tp = 0 → page = 1) := by
  induction h with
  | init => exact ⟨le_refl 1, fun _ => rfl⟩
  | step pg p hr ih =>
    unfold goToPage
    by_cases hc : p < 1 ∨ tp < p
    · rw [if_pos hc]
      exact ih
    · rw [if_neg hc]
      push_neg at hc
      exact ⟨hc.1, fun h0 => by omega⟩

/-- Witness for C9 at the initial state of a 3-page configuration. -/
theorem claimC9_witness : 1 ≤ (1:ℤ) ∧ ((3:ℤ) = 0 → (1:ℤ) = 1) :=
  claimC9 3 1 Reachable.init

/-- Embeds `allPosts.findIndex(post => post.path === postPath)` from
`app/pages/blog/[slug].vue`: the index of the first post with the given
path, `-1` when absent. -/
def findIndexJS (posts : List Post) (postPath : String) : ℤ :=
  match posts.findIdx? (fun post => post.path == postPath) with
  | some i => (i : ℤ)
  | none => -1

/-- Embeds the `prev`/`next` computation of `app/pages/blog/[slug].vue`:
`prev = currentIndex > 0 ? allPosts[currentIndex - 1] : null`,
`next = currentIndex < allPosts.length - 1 ? allPosts[currentIndex + 1] : null`
(JavaScript indexing out of range yields `undefined`, modelled by `get?`). -/
def listAdjacent (allPosts : List Post) (postPath : String) :
    Option Post × Option Post :=
  let currentIndex := findIndexJS allPosts postPath
  (if 0 < currentIndex then allPosts.get? (currentIndex - 1).toNat else none,
   if currentIndex < (allPosts.length : ℤ) - 1
    then allPosts.get? (currentIndex + 1).toNat else none)

/-- A second concrete post for multi-post evaluations. -/
def samplePost2 : Post :=
  { path := "/blog/second"
    title := some "Second"
    description := some "another post"
    tags := some [] }

/-- C3 (code bug): on a 2-post list and a path carried by no post,
`findIndex` yields `-1`; `prev` is guarded (`> 0`) and becomes `none`, but
the `next` guard `-1 < length - 1` passes and `next` becomes
`allPosts[0]` — the first post, not `none` as specified. -/
theorem claimC3_code_eval :
    ([samplePost, samplePost2].all (fun p => p.path != "/blog/missing")) = true
    ∧ listAdjacent [samplePost, samplePost2] "/blog/missing"
        = (none, some samplePost) := by
  constructor
  · decide
  · decide

/-- Embeds the posts fetch of `app/pages/tags/[tag].vue`: the query takes
the whole collection (`queryCollection('blog').all()`); the tag restriction
(`.where('tag', 'IN', 'tags')`) is commented out, so the `tag` route
parameter is ignored and every post is returned. -/
def tagPagePosts (allPosts : List Post) (tag : String) : List Post :=
  allPosts

/-- C4 (code bug): with one post tagged only `java` and the route tag
`sql`, no post carries the tag, yet the page's post list is the whole
collection (the post is rendered) and the empty state is not shown. -/
theorem claimC4_code_eval :
    ([samplePost].all (fun p => !((p.tags.getD []).contains "sql"))) = true
    ∧ tagPagePosts [samplePost] "sql" = [samplePost]
    ∧ (tagPagePosts [samplePost] "sql").isEmpty = false := by
  refine ⟨by decide, rfl, rfl⟩

/-- One entry of the tag cloud of `app/pages/tags/index.vue`: a tag name
with its occurrence count. -/
structure TagCount where
  name : String
  count : ℕ
deriving Repr, DecidableEq

/-- JavaScript-object read `tagCounts[tag] || 0`: the value stored under a
key of the association list, `0` when the key is absent. -/
def getKey : List (String × ℕ) → String → ℕ
  | [], _ => 0
  | (k', v') :: rest, k => if k' = k then v' else getKey rest k

/-- JavaScript-object write `tagCounts[tag] = v`: an existing key keeps its
position, a new key is appended (insertion order, as `Object.entries`
later observes it). -/
def setKey : List (String × ℕ) → String → ℕ → List (String × ℕ)
  | [], k, v => [(k, v)]
  | (k', v') :: rest, k, v =>
    if k' = k then (k, v) :: rest else (k', v') :: setKey rest k v

/-- One step of the tag-frequency loop in `app/pages/tags/index.vue`:
`tagCounts[tag] = (tagCounts[tag] || 0) + 1`. -/
def bump (m : List (String × ℕ)) (tag : String) : List (String × ℕ) :=
  setKey m tag (getKey m tag + 1)

/-- The `tagCounts` object of `app/pages/tags/index.vue` after both
`forEach` loops: every tag occurrence of every post bumps its counter;
posts with an absent tags field contribute nothing. -/
def tagCountsOf (posts : List Post) : List (String × ℕ) :=
  posts.foldl (fun m p => (p.tags.getD []).foldl bump m) []

/-- The `tags` computed property of `app/pages/tags/index.vue`
(spec name `aggregateTags`): `Object.entries(tagCounts)` mapped to
name/count records and sorted by `(a, b) => b.count - a.count`
(descending count; JavaScript sort, modelled as a stable merge sort). -/
def aggregateTags (posts : List Post) : List TagCount :=
  ((tagCountsOf posts).map (fun e => TagCount.mk e.1 e.2)).mergeSort
    (fun a b => decide (b.count ≤ a.count))

/-- Total of the counters stored in the association list. -/
def sumCounts : List (String × ℕ) → ℕ
  | [] => 0
  | e :: rest => e.2 + sumCounts rest

lemma sumCounts_bump (m : List (String × ℕ)) (tag : String) :
    sumCounts (bump m tag) = sumCounts m + 1 := by
  unfold bump
  induction m with
  | nil => simp [setKey, getKey, sumCounts]
  | cons hd tl ih =>
    obtain ⟨k, v⟩ := hd
    by_cases hk : k = tag
    · simp only [setKey, getKey, if_pos hk, sumCounts]
      omega
    · simp only [setKey, getKey, if_neg hk, sumCounts] at ih ⊢
      omega

lemma sumCounts_foldl_bump (l : List String) :
    ∀ m : List (String × ℕ), sumCounts (l.foldl bump m) = sumCounts m + l.length := by
  induction l with
  | nil => intro m; simp
  | cons t ts ih =>
    intro m
    simp only [List.foldl_cons, ih, sumCounts_bump, List.length_cons]
    omega

lemma sumCounts_foldl_posts (posts : List Post) :
    ∀ m : List (String × ℕ),
      sumCounts (posts.foldl (fun m p => (p.tags.getD []).foldl bump m) m)
        = sumCounts m + (posts.map (fun p => (p.tags.getD []).length)).sum := by
  induction posts with
  | nil => intro m; simp
  | cons p ps ih =>
    intro m
    simp only [List.foldl_cons, ih, sumCounts_foldl_bump, List.map_cons, List.sum_cons]
    omega

lemma sumCounts_eq_map_sum (m : List (String × ℕ)) :
    sumCounts m = (m.map (fun e => e.2)).sum := by
  induction m with
  | nil => rfl
  | cons hd tl ih => simp [sumCounts, ih]

/-- C6: the counts produced by the tag aggregator sum to the total number
of (post, tag) occurrence pairs: each occurrence of a tag in a post's tags
sequence contributes exactly 1 (a repeated tag counts per occurrence),
posts with empty or absent tags contribute nothing. -/
theorem claimC6 (P : List Post) :
    ((aggregateTags P).map TagCount.count).sum
      = (P.map (fun p => (p.tags.getD []).length)).sum := by
  have hperm :
      (aggregateTags P).Perm ((tagCountsOf P).map (fun e => TagCount.mk e.1 e.2)) :=
    List.mergeSort_perm _ _
  have hs := (hperm.map TagCount.count).sum_eq
  rw [hs, List.map_map]
  have hcomp :
      ((tagCountsOf P).map (TagCount.count ∘ fun e => TagCount.mk e.1 e.2)).sum
        = sumCounts (tagCountsOf P) := by
    rw [sumCounts_eq_map_sum]
    rfl
  rw [hcomp]
  have := sumCounts_foldl_posts P []
  simpa [tagCountsOf, sumCounts] using this

/-- C7: the counts in the aggregator's output are sorted non-increasing:
each element's count is at least the count of the element that follows. -/
theorem claimC7 (P : List Post) :
    List.Chain' (fun a b : TagCount => b.count ≤ a.count) (aggregateTags P) := by
  unfold aggregateTags
  have h := @List.sorted_mergeSort TagCount
      (fun a b : TagCount => decide (b.count ≤ a.count))
      (fun a b c hab hbc => by
        simp only [decide_eq_true_eq] at hab hbc ⊢
        omega)
      (fun a b => by
        simp only [Bool.or_eq_true, decide_eq_true_eq]
        omega)
      ((tagCountsOf P).map (fun e => TagCount.mk e.1 e.2))
  have h2 : List.Pairwise (fun a b : TagCount => b.count ≤ a.count)
      (((tagCountsOf P).map (fun e => TagCount.mk e.1 e.2)).mergeSort
        (fun a b => decide (b.count ≤ a.count))) := by
    refine h.imp ?_
    intro a b hab
    simpa using hab
  exact h2.chain'

/-- The key sequence of the association list, in insertion order. -/
def keysOf (m : List (String × ℕ)) : List String :=
  m.map (fun e => e.1)

lemma mem_keys_setKey (k : String) (v : ℕ) :
    ∀ (m : List (String × ℕ)) (a : String),
      a ∈ keysOf (setKey m k v) → a ∈ keysOf m ∨ a = k := by
  intro m
  induction m with
  | nil =>
    intro a h
    simp [setKey, keysOf] at h
    exact Or.inr h
  | cons hd tl ih =>
    intro a h
    obtain ⟨k', v'⟩ := hd
    by_cases hk : k' = k
    · simp only [setKey, if_pos hk, keysOf, List.map_cons, List.mem_cons] at h ⊢
      rcases h with h | h
      · exact Or.inr h
      · exact Or.inl (Or.inr h)
    · simp only [setKey, if_neg hk, keysOf, List.map_cons, List.mem_cons] at h ⊢
      rcases h with h | h
      · exact Or.inl (Or.inl h)
      · rcases ih a h with h2 | h2
        · exact Or.inl (Or.inr h2)
        · exact Or.inr h2

lemma nodup_keys_setKey (k : String) (v : ℕ) :
    ∀ m : List (String × ℕ), (keysOf m).Nodup → (keysOf (setKey m k v)).Nodup := by
  intro m
  induction m with
  | nil =>
    intro _
    simp [setKey, keysOf]
  | cons hd tl ih =>
    intro h
    obtain ⟨k', v'⟩ := hd
    simp only [keysOf, List.map_cons, List.nodup_cons] at h
    by_cases hk : k' = k
    · simp only [setKey, if_pos hk, keysOf, List.map_cons, List.nodup_cons]
      subst hk
      exact h
    · simp only [setKey, if_neg hk, keysOf, List.map_cons, List.nodup_cons]
      refine ⟨?_, ih h.2⟩
      intro hmem
      rcases mem_keys_setKey k v tl k' hmem with h2 | h2
      · exact h.1 h2
      · exact hk h2

lemma nodup_keys_foldl_bump (l : List String) :
    ∀ m : List (String × ℕ), (keysOf m).Nodup → (keysOf (l.foldl bump m)).Nodup := by
  induction l with
  | nil => intro m h; simpa using h
  | cons t ts ih =>
    intro m h
    simp only [List.foldl_cons]
    exact ih _ (nodup_keys_setKey t _ m h)

lemma nodup_keys_tagCountsOf (posts : List Post) :
    (keysOf (tagCountsOf posts)).Nodup := by
  have hgen : ∀ m : List (String × ℕ), (keysOf m).Nodup →
      (keysOf (posts.foldl (fun m p => (p.tags.getD []).foldl bump m) m)).Nodup := by
    induction posts with
    | nil => intro m h; simpa using h
    | cons p ps ih =>
      intro m h
      simp only [List.foldl_cons]
      exact ih _ (nodup_keys_foldl_bump _ m h)
  exact hgen [] (by simp [keysOf])

/-- C10: each tag name appears at most once in the aggregator's output —
occurrences are merged into a single entry, so the names are pairwise
distinct. -/
theorem claimC10 (P : List Post) :
    ((aggregateTags P).map TagCount.name).Nodup := by
  have hperm :
      (aggregateTags P).Perm ((tagCountsOf P).map (fun e => TagCount.mk e.1 e.2)) :=
    List.mergeSort_perm _ _
  rw [(hperm.map TagCount.name).nodup_iff, List.map_map]
  exact nodup_keys_tagCountsOf P
